import Mathlib

/-!
# Verification of the sigcxx signal/slot connection protocol

Shallow embedding of the sigcxx library (src/include/sigcxx/sigcxx.hpp and
src/include/cppevent/event-invoker.hpp).  The emitter's doubly linked token
list is modelled as a Lean `List` in head-to-tail order; each traversal loop
of the C++ source is translated into a structural recursion over that list.
-/

namespace Sigcxx

/-! ## Token insertion — `SignalT::InsertToken` (sigcxx.hpp lines 918-998)

The C++ walks the list with a signed index.  For `index >= 0` it starts at
`first_token_` and steps forward while `index > 0`; if the walk stops on a
live node the new token is inserted *before* it, and if the walk ran off the
tail the token is pushed back.  For `index < 0` it starts at `last_token_`
and steps backward while `index < -1`; if the walk stops on a live node the
new token is inserted *after* it, otherwise it is pushed front.

`insertFwd x n xs` is the forward walk over the suffix `xs` with `n` steps
remaining: exhausting the list appends (push back), reaching `0` inserts
before the current node.  The backward walk is the same recursion performed
on the reversed list (stepping over `previous` pointers), where "insert
after the current node" reads as "insert before it in reversed order" and
"push front" reads as "append to the reversed list". -/

def insertFwd (x : α) : Nat → List α → List α
  | _, [] => [x]
  | 0, p :: rest => x :: p :: rest
  | n + 1, p :: rest => p :: insertFwd x n rest

def insertToken (index : Int) (x : α) (xs : List α) : List α :=
  if xs.isEmpty then [x]
  else if 0 ≤ index then insertFwd x index.toNat xs
  else (insertFwd x (-index - 1).toNat xs.reverse).reverse

/-! ## Positional disconnect — `SignalT::Disconnect(int,int)` (sigcxx.hpp 716-761)

For `start_pos >= 0` the scan skips `start_pos` nodes from the head, then
repeatedly deletes the current node, increments the removed counter and
decrements `counts`, breaking when `counts == 0` *after* the deletion.  For
`start_pos < 0` the scan starts at the tail, skips while `start_pos < -1`,
then deletes walking backward over `previous` pointers.

`removeFwd c xs` is the deletion loop on the suffix `xs`: it mirrors the
`counts--; delete tmp; if (counts == 0) break;` body, so `c = 1` removes one
node, and a zero or negative `c` never reaches the `counts == 0` exit and
removes everything.  The backward loop is the same recursion over the
reversed list. -/

def removeFwd : Int → List α → List α × Nat
  | _, [] => ([], 0)
  | c, _ :: rest =>
    if c - 1 = 0 then (rest, 1)
    else ((removeFwd (c - 1) rest).1, (removeFwd (c - 1) rest).2 + 1)

def disconnectPos (startPos counts : Int) (xs : List α) : List α × Nat :=
  if 0 ≤ startPos then
    (xs.take startPos.toNat ++ (removeFwd counts (xs.drop startPos.toNat)).1,
     (removeFwd counts (xs.drop startPos.toNat)).2)
  else
    ((xs.reverse.take (-startPos - 1).toNat
        ++ (removeFwd counts (xs.reverse.drop (-startPos - 1).toNat)).1).reverse,
     (removeFwd counts (xs.reverse.drop (-startPos - 1).toNat)).2)

/-! ## Connection counting — `SignalT::CountConnections()` (sigcxx.hpp 844-851)

A plain walk of the token list incrementing a counter. -/

def countConnections : List α → Nat
  | [] => 0
  | _ :: rest => countConnections rest + 1

/-! ## The Emit loop — `SignalT::Emit` (sigcxx.hpp 853-867) and `Slot`
(sigcxx.hpp 196-270)

`Emit` creates a `Slot` positioned at `first_token()` and loops: it parks the
slot's mark on the current token, invokes the token's callable with the slot,
then — if the invocation destroyed the current token — finds `skip_` set,
clears it and does *not* advance; otherwise it advances `token_` to `next`.

The token teardown side (`Token::~Token` visiting each parked `Slot::Mark`,
repositioning that slot's `token_` to the dying token's successor and setting
`skip_`) lives in the repository's `sigcxx.cpp`, which is not among the
provided sources.  Modelled from the spec: "the Anchor's own teardown visited
this Cursor's mark and set the skip-advance flag and repositioned the
Cursor's current-Anchor reference to the successor that existed at deletion
time; clear the flag and do not advance again."

The callbacks relevant to the claims either do nothing or disconnect their
own connection (`Trackable::UnbindSignal(slot)` deleting the current token),
captured by `SlotAction`.  `emitAux` returns the surviving token list
(tokens removed by a self-disconnecting callback are gone) together with the
invocation log in execution order. -/

inductive SlotAction where
  | nop
  | selfDisconnect
deriving DecidableEq

structure Token where
  id : Nat
  action : SlotAction
deriving DecidableEq

def emitAux : List Token → List Token × List Nat
  | [] => ([], [])
  | t :: rest =>
    match t.action with
    | .selfDisconnect =>
      -- Invoke destroys the current token: teardown repositions the slot to
      -- `rest` and sets `skip_`; the loop clears `skip_` and does not
      -- advance, so the next iteration runs on `rest`.
      ((emitAux rest).1, t.id :: (emitAux rest).2)
    | .nop =>
      -- `skip_` is still false: the loop advances the slot to `rest`; the
      -- token survives in the signal's list.
      (t :: (emitAux rest).1, t.id :: (emitAux rest).2)

/-! ## Filtered disconnect — `SignalT::Disconnect(T*, method, int, int)`
(sigcxx.hpp 605-658)

Same two-direction scan as the positional overload, but a node is deleted
(and the counters touched) only when it matches the receiver/method filter
(`tmp->binding->trackable == obj` plus the delegate `Equal` test); the
`counts == 0` exit test still runs after every node. -/

def scanF (m : α → Bool) : Int → List α → List α × Nat
  | _, [] => ([], 0)
  | c, t :: rest =>
    if m t then
      if c - 1 = 0 then (rest, 1)
      else ((scanF m (c - 1) rest).1, (scanF m (c - 1) rest).2 + 1)
    else
      if c = 0 then (t :: rest, 0)
      else (t :: (scanF m c rest).1, (scanF m c rest).2)

def disconnectFiltered (m : α → Bool) (startPos counts : Int) (xs : List α) :
    List α × Nat :=
  if 0 ≤ startPos then
    (xs.take startPos.toNat ++ (scanF m counts (xs.drop startPos.toNat)).1,
     (scanF m counts (xs.drop startPos.toNat)).2)
  else
    ((xs.reverse.take (-startPos - 1).toNat
        ++ (scanF m counts (xs.reverse.drop (-startPos - 1).toNat)).1).reverse,
     (scanF m counts (xs.reverse.drop (-startPos - 1).toNat)).2)

/-- Tokens as seen by the filtered operations: each delegate token carries
the receiver it is bound to and the method identity used by `Equal`. -/
structure DTok where
  recv : Nat
  meth : Nat
deriving DecidableEq

def methodMatch (obj mth : Nat) (t : DTok) : Bool :=
  t.recv == obj && t.meth == mth

def disconnectByMethod (obj mth : Nat) (startPos counts : Int) (xs : List DTok) :
    List DTok × Nat :=
  disconnectFiltered (methodMatch obj mth) startPos counts xs

/-! ## Endpoint destruction — the teardown cascade

The world of one signal N connected to one receiver R: `tokens` is N's token
list and `bindings` is R's binding list, each binding named by the token it
is paired with.

`AbstractTrackable::~AbstractTrackable` (event-invoker.hpp 269-272) calls
`RemoveAllBindings` (368-378), which deletes every `Binding` in R's list;
each `Binding::~Binding` (215-247) unlinks itself, nulls the reciprocal
`token->binding` pointer, and only then deletes the paired `Token`, whose
destructor (249-267) therefore finds `binding == 0` and does not recurse
back — the forward-null-then-delete that blocks a double free.  The net
effect of one binding's death is the paired token leaving N's list.

`SignalT::~SignalT` (sigcxx.hpp 432-434) calls `DisconnectAll`
(1000-1010), which deletes every `Token`; each `Token::~Token` nulls
`binding->token` then deletes the paired `Binding`, removing it from R's
list, symmetrically. -/

structure ConnWorld where
  tokens : List Nat
  bindings : List Nat

def removeAllBindings : List Nat → List Nat → List Nat
  | ts, [] => ts
  | ts, b :: bs => removeAllBindings (ts.erase b) bs

def destroyTrackable (w : ConnWorld) : ConnWorld :=
  { tokens := removeAllBindings w.tokens w.bindings, bindings := [] }

def disconnectAllCascade : List Nat → List Nat → List Nat
  | bs, [] => bs
  | bs, t :: ts => disconnectAllCascade (bs.erase t) ts

def destroySignal (w : ConnWorld) : ConnWorld :=
  { tokens := [], bindings := disconnectAllCascade w.bindings w.tokens }

/-- `CountSignalBindings()` with no filter.  Modelled from the spec: the
body of `Trackable::CountSignalBindings()` (declared sigcxx.hpp 321) is in
the repository's `sigcxx.cpp`, which is not among the provided sources; the
spec describes it as `CountRegistrations() -> int`, a linear count of the
receiver's registration list. -/
def countSignalBindings : List α → Nat
  | [] => 0
  | _ :: rest => countSignalBindings rest + 1

/-! ## `SignalT::IsConnectedTo(const Trackable*)` (sigcxx.hpp 794-809)

The lockstep walk: `token` runs over the signal's token list, `binding`
over the trackable's binding list, both advancing together; the loop stops
when either runs out and short-circuits to `true` on the first
cross-reference hit from either side.  Each token is represented by the
trackable its binding points back to (`token->binding->trackable`), each
binding by the signal its token points back to (`binding->token->trackable`). -/

def isConnectedTo (sig obj : Nat) : List Nat → List Nat → Bool
  | t :: ts, b :: bs =>
    if t = obj then true
    else if b = sig then true
    else isConnectedTo sig obj ts bs
  | _, _ => false

/-! ## Pair symmetry — `Trackable::link` (sigcxx.hpp 353-360),
`AbstractTrackable::link` (event-invoker.hpp 380-388), and the node
destructors

A `PairWorld` is the heap of live connection nodes: each token carries its
`binding` back-reference (an optional binding identifier), each binding its
`token` back-reference.  `Option` captures "references at most one".

`connect` is `SignalT::Connect` (sigcxx.hpp 541-553): allocate one fresh
token and one fresh binding, `link` them — `token->binding = binding;
binding->token = token` — then `InsertToken(index, token)` into the
emitter's list and `push_back` the binding onto the receiver's list.

`destroyStep` is the destructor of one node of the first list
(`Token::~Token`, event-invoker.hpp 249-267, or symmetrically
`Binding::~Binding`, 215-247): unlink the node; if its pair reference is
set, null the reciprocal pointer and delete the partner, removing it from
the second list. -/

structure PairWorld where
  tokens : List (Nat × Option Nat)
  bindings : List (Nat × Option Nat)

def connect (index : Int) (tid bid : Nat) (w : PairWorld) : PairWorld :=
  { tokens := insertToken index (tid, some bid) w.tokens,
    bindings := w.bindings ++ [(bid, some tid)] }

def destroyStep (nid : Nat) (ts bs : List (Nat × Option Nat)) :
    List (Nat × Option Nat) × List (Nat × Option Nat) :=
  match ts.find? (fun t => t.1 == nid) with
  | none => (ts, bs)
  | some t =>
    match t.2 with
    | none => (ts.filter (fun q => q.1 != nid), bs)
    | some pid => (ts.filter (fun q => q.1 != nid), bs.filter (fun p => p.1 != pid))

def destroyToken (tid : Nat) (w : PairWorld) : PairWorld :=
  { tokens := (destroyStep tid w.tokens w.bindings).1,
    bindings := (destroyStep tid w.tokens w.bindings).2 }

def destroyBinding (bid : Nat) (w : PairWorld) : PairWorld :=
  { tokens := (destroyStep bid w.bindings w.tokens).2,
    bindings := (destroyStep bid w.bindings w.tokens).1 }

/-- The node of the second list pairing back to node `i` through identifier
`n`. -/
def bPred (n i : Nat) : Nat × Option Nat → Bool :=
  fun p => p.1 == n && p.2 == some i

/-- The pair-symmetry invariant: node identifiers are unique on each side,
and whenever one side's pair reference is non-null, the other side holds
exactly one node pairing back at it. -/
def Sym (w : PairWorld) : Prop :=
  (w.tokens.map Prod.fst).Nodup ∧
  (w.bindings.map Prod.fst).Nodup ∧
  (∀ t ∈ w.tokens, ∀ b, t.2 = some b → w.bindings.countP (bPred b t.1) = 1) ∧
  (∀ p ∈ w.bindings, ∀ a, p.2 = some a → w.tokens.countP (bPred a p.1) = 1)

/-! ## Theorems -/

theorem countConnections_eq_length (xs : List α) :
    countConnections xs = xs.length := by
  induction xs with
  | nil => rfl
  | cons _ _ ih => simp [countConnections, ih]

/-- Every token in the list is invoked exactly once, head to tail: the log of
an emission is the identifier sequence of the token list, whatever each
callback does. -/
theorem emitAux_log (ts : List Token) : (emitAux ts).2 = ts.map Token.id := by
  induction ts with
  | nil => rfl
  | cons t rest ih =>
    cases h : t.action <;> simp [emitAux, h, ih]

/-- Tokens whose callback self-disconnects are removed; all others survive in
order. -/
theorem emitAux_kept (ts : List Token) :
    (emitAux ts).1 = ts.filter (fun t => t.action == SlotAction.nop) := by
  induction ts with
  | nil => rfl
  | cons t rest ih =>
    cases h : t.action <;> simp [emitAux, h, ih, List.filter_cons]

/-- A zero or negative `counts` never satisfies the `counts == 0` exit test
(the counter is decremented *before* the test), so the deletion loop removes
every remaining node. -/
theorem removeFwd_nonpos (xs : List α) :
    ∀ c : Int, c ≤ 0 → removeFwd c xs = ([], xs.length) := by
  induction xs with
  | nil => intro c _; rfl
  | cons a rest ih =>
    intro c hc
    have h1 : ¬(c - 1 = 0) := by omega
    simp [removeFwd, h1, ih (c - 1) (by omega)]

/-- A positive `counts` removes `min counts length` consecutive nodes from
the front of the scanned suffix. -/
theorem removeFwd_pos (xs : List α) :
    ∀ c : Int, 1 ≤ c →
      removeFwd c xs = (xs.drop (min c.toNat xs.length), min c.toNat xs.length) := by
  induction xs with
  | nil => intro c _; simp [removeFwd]
  | cons a rest ih =>
    intro c hc
    by_cases h1 : c - 1 = 0
    · have hc1 : c = 1 := by omega
      subst hc1
      have hm : min (Int.toNat 1) (rest.length + 1) = 1 := by omega
      simp [removeFwd, hm]
    · have ih' := ih (c - 1) (by omega)
      have hm : min c.toNat (rest.length + 1) = min (c - 1).toNat rest.length + 1 := by
        omega
      simp [removeFwd, h1, ih', hm]

/-- A scan over a suffix containing no match deletes nothing and leaves the
suffix intact, whatever the remaining count is. -/
theorem scanF_no_match (m : α → Bool) (l : List α) (h : ∀ t ∈ l, m t = false) :
    ∀ c : Int, scanF m c l = (l, 0) := by
  induction l with
  | nil => intro c; rfl
  | cons t rest ih =>
    intro c
    have hm : m t = false := h t (List.mem_cons_self t rest)
    have ih' := ih (fun x hx => h x (List.mem_cons_of_mem t hx))
    by_cases hc : c = 0
    · simp [scanF, hm, hc]
    · simp [scanF, hm, hc, ih' c]

/-- C5: the positional `Disconnect(startPos, count)` with a positive count
scans from `startPos` — forward from the head when non-negative, backward
from the tail when negative (`-1` = last) — deletes up to `count`
consecutive connections, and returns the number actually removed; scanning
past either end of the list removes nothing.  Stated as closed forms for
both directions: forward removes the `min count (length - startPos)` nodes
beginning at index `startPos`; backward removes the `min count (length - k)`
nodes ending at index `length - 1 - k` where `k = -startPos - 1` is the
offset from the tail.  On `[x0..x4]`, `Disconnect(1, 2)` yields
`([x0, x3, x4], 2)` and `Disconnect(-1, 2)` yields `([x0, x1, x2], 2)`. -/
theorem disconnect_range (xs : List Nat) (s c : Int) (hc : 1 ≤ c) :
    (0 ≤ s →
      disconnectPos s c xs
        = (xs.take s.toNat ++ xs.drop (s.toNat + min c.toNat (xs.length - s.toNat)),
           min c.toNat (xs.length - s.toNat)))
    ∧ (s < 0 →
      disconnectPos s c xs
        = (xs.take (xs.length - (-s - 1).toNat
              - min c.toNat (xs.length - (-s - 1).toNat))
             ++ xs.drop (xs.length - (-s - 1).toNat),
           min c.toNat (xs.length - (-s - 1).toNat))) := by
  constructor
  · intro hs
    have hr := removeFwd_pos (xs.drop s.toNat) c hc
    simp only [disconnectPos, if_pos hs, hr, List.length_drop, List.drop_drop]
  · intro hs
    have hns : ¬(0 ≤ s) := by omega
    have hr := removeFwd_pos (xs.reverse.drop (-s - 1).toNat) c hc
    simp only [disconnectPos, if_neg hns, hr, List.length_drop,
      List.length_reverse, List.drop_drop]
    rw [Prod.mk.injEq]
    refine ⟨?_, rfl⟩
    rw [List.reverse_append, List.drop_reverse, List.take_reverse,
      List.reverse_reverse, List.reverse_reverse]
    congr 2
    omega

/-- C5 witness: the two spec examples, obtained from `disconnect_range` at
concrete inputs. -/
theorem disconnect_range_witness :
    disconnectPos 1 2 [0, 1, 2, 3, 4] = ([0, 3, 4], 2)
    ∧ disconnectPos (-1) 2 [0, 1, 2, 3, 4] = ([0, 1, 2], 2) := by
  constructor
  · exact ((disconnect_range [0, 1, 2, 3, 4] 1 2 (by decide)).1 (by decide)).trans
      (by decide)
  · exact ((disconnect_range [0, 1, 2, 3, 4] (-1) 2 (by decide)).2 (by decide)).trans
      (by decide)

/-- C6 counterexample: with its default arguments `startPos = -1, count = 1`,
`Disconnect()` on the two-element list `[0, 1]` leaves one connection behind
— it does not remove every connection. -/
theorem disconnect_default_leaves_one :
    (disconnectPos (-1) 1 [0, 1]).1 ≠ ([] : List Nat) := by decide

/-- C6 amended: `Disconnect()` with its default parameters
`startPos = -1, count = 1` removes exactly the last connection — on a
non-empty list it deletes the final node and returns 1, and on an empty list
it removes nothing and returns 0. -/
theorem disconnect_default_removes_last :
    (∀ (xs : List Nat) (x : Nat), disconnectPos (-1) 1 (xs ++ [x]) = (xs, 1))
    ∧ disconnectPos (-1) 1 ([] : List Nat) = ([], 0) := by
  constructor
  · intro xs x
    have : ¬((0 : Int) ≤ -1) := by decide
    simp [disconnectPos, this, removeFwd]
  · rfl

/-- C7: for every negative count, the positional `Disconnect(startPos,
count)` removes everything remaining from the scan start onward — forward
from the head it keeps exactly the first `startPos` connections, backward
from the tail it keeps exactly the `-startPos - 1` connections behind the
start — and returns the number removed; the count's closed form does not
mention `count`, so every negative count gives the same unbounded removal
and the loop never stops early. -/
theorem disconnect_negative_count (xs : List Nat) (s c : Int) (hc : c < 0) :
    (0 ≤ s → disconnectPos s c xs = (xs.take s.toNat, xs.length - s.toNat))
    ∧ (s < 0 →
        disconnectPos s c xs
          = (xs.drop (xs.length - (-s - 1).toNat),
             xs.length - (-s - 1).toNat)) := by
  constructor
  · intro hs
    have hr := removeFwd_nonpos (xs.drop s.toNat) c (by omega)
    simp [disconnectPos, if_pos hs, hr]
  · intro hs
    have hns : ¬(0 ≤ s) := by omega
    have hr := removeFwd_nonpos (xs.reverse.drop (-s - 1).toNat) c (by omega)
    simp only [disconnectPos, if_neg hns, hr, List.length_drop,
      List.length_reverse, List.append_nil]
    rw [List.take_reverse, List.reverse_reverse]

/-- C7 witness: `Disconnect(1, -1)` on a four-element list removes the three
connections from index 1 on, and `Disconnect(-2, -5)` removes everything
except the last connection. -/
theorem disconnect_negative_count_witness :
    disconnectPos 1 (-1) [0, 1, 2, 3] = ([0], 3)
    ∧ disconnectPos (-2) (-5) [0, 1, 2, 3] = ([3], 3) := by
  constructor
  · exact ((disconnect_negative_count [0, 1, 2, 3] 1 (-1) (by decide)).1
      (by decide)).trans (by decide)
  · exact ((disconnect_negative_count [0, 1, 2, 3] (-2) (-5) (by decide)).2
      (by decide)).trans (by decide)

/-- C8: the filtered `Disconnect(receiver, method, startPos, count)` applied
to a receiver/method pair matching no connection returns 0 and leaves the
token list unchanged — same nodes, same order — for every start position and
count; the operation is total and never signals an error. -/
theorem filtered_disconnect_miss (obj mth : Nat) (s c : Int) (xs : List DTok)
    (h : ∀ t ∈ xs, ¬(t.recv = obj ∧ t.meth = mth)) :
    disconnectByMethod obj mth s c xs = (xs, 0) := by
  have hb : ∀ t ∈ xs, methodMatch obj mth t = false := by
    intro t ht
    have := h t ht
    simp only [methodMatch, Bool.and_eq_false_iff, beq_eq_false_iff_ne, ne_eq]
    tauto
  by_cases hs : 0 ≤ s
  · have hsub : ∀ t ∈ xs.drop s.toNat, methodMatch obj mth t = false :=
      fun t ht => hb t (List.mem_of_mem_drop ht)
    have hr := scanF_no_match (methodMatch obj mth) (xs.drop s.toNat) hsub c
    simp [disconnectByMethod, disconnectFiltered, if_pos hs, hr]
  · have hsub : ∀ t ∈ xs.reverse.drop (-s - 1).toNat,
        methodMatch obj mth t = false := by
      intro t ht
      exact hb t (List.mem_reverse.mp (List.mem_of_mem_drop ht))
    have hr := scanF_no_match (methodMatch obj mth)
      (xs.reverse.drop (-s - 1).toNat) hsub c
    simp only [disconnectByMethod, disconnectFiltered, if_neg hs, hr]
    rw [List.take_append_drop, List.reverse_reverse]

/-- C8 witness: disconnecting receiver 7 / method 9 from a list bound to
other receivers removes nothing. -/
theorem filtered_disconnect_miss_witness :
    disconnectByMethod 7 9 (-1) 1 [⟨1, 2⟩, ⟨3, 4⟩] = ([⟨1, 2⟩, ⟨3, 4⟩], 0) :=
  filtered_disconnect_miss 7 9 (-1) 1 [⟨1, 2⟩, ⟨3, 4⟩] (by decide)

/-- C1: with three receivers connected and the second's callback
disconnecting its own connection when invoked, `Fire` still invokes all
three callbacks exactly once each, in order, and afterwards
`CountConnections() == 2`; more generally every token in the list is
invoked exactly once head-to-tail — the skip-advance flag set by the
destroyed node's teardown suppresses exactly the one advance the loop
would otherwise perform, so the walk neither skips nor revisits a node. -/
theorem self_disconnect_fire :
    (∀ ts : List Token, (emitAux ts).2 = ts.map Token.id)
    ∧ ∀ i j k : Nat,
        emitAux [⟨i, .nop⟩, ⟨j, .selfDisconnect⟩, ⟨k, .nop⟩]
          = ([⟨i, .nop⟩, ⟨k, .nop⟩], [i, j, k])
        ∧ countConnections
            (emitAux [⟨i, .nop⟩, ⟨j, .selfDisconnect⟩, ⟨k, .nop⟩]).1 = 2 := by
  refine ⟨emitAux_log, fun i j k => ⟨?_, ?_⟩⟩ <;>
    simp [emitAux, countConnections]

/-- C3: `Fire` visits the token list head-to-tail in current list order
(the invocation log is the identifier sequence of the list), and list order
is insertion order unless an explicit index was given: three appends
(`index = -1`, the `Connect` default) produce `[a, b, c]`, while
`Connect(b, index=0)` after `Connect(a)` produces `[b, a]`, so firing then
invokes `b` before `a`. -/
theorem fire_order_insertion :
    (∀ ts : List Token, (emitAux ts).2 = ts.map Token.id)
    ∧ (∀ a b c : Token,
        insertToken (-1) c (insertToken (-1) b (insertToken (-1) a [])) = [a, b, c])
    ∧ (∀ a b : Token, insertToken 0 b [a] = [b, a])
    ∧ (∀ i j : Nat,
        (emitAux (insertToken 0 ⟨j, .nop⟩ [⟨i, .nop⟩])).2 = [j, i]) := by
  refine ⟨emitAux_log, fun a b c => ?_, fun a b => ?_, fun i j => ?_⟩ <;>
    simp [insertToken, insertFwd, emitAux]

/-- Walking past the tail of the list pushes the new node back. -/
theorem insertFwd_ge (x : α) :
    ∀ (xs : List α) (n : Nat), xs.length ≤ n → insertFwd x n xs = xs ++ [x] := by
  intro xs
  induction xs with
  | nil => intro n _; cases n <;> rfl
  | cons p rest ih =>
    intro n hn
    match n with
    | 0 => simp at hn
    | m + 1 => simp [insertFwd, ih m (by simpa using hn)]

/-- C10: `Connect` never fails on any index: `InsertToken` clamps
out-of-range indices instead of rejecting them.  A non-negative index at
least the current length appends the new token at the tail, and a negative
index whose backward offset runs past the head prepends it. -/
theorem insert_index_clamped (xs : List Nat) (x : Nat) (i : Int) :
    (0 ≤ i → xs.length ≤ i.toNat → insertToken i x xs = xs ++ [x])
    ∧ (i < 0 → xs.length ≤ (-i - 1).toNat → insertToken i x xs = x :: xs) := by
  constructor
  · intro hi hlen
    cases xs with
    | nil => rfl
    | cons p rest =>
      simp only [insertToken, List.isEmpty_cons, if_neg Bool.false_ne_true,
        if_pos hi]
      exact insertFwd_ge x (p :: rest) i.toNat hlen
  · intro hi hlen
    cases xs with
    | nil => rfl
    | cons p rest =>
      have hni : ¬(0 ≤ i) := by omega
      simp only [insertToken, List.isEmpty_cons, if_neg Bool.false_ne_true,
        if_neg hni]
      rw [insertFwd_ge x (p :: rest).reverse (-i - 1).toNat
        (by simpa using hlen)]
      simp

/-- C10 witness: index 5 on a two-element list appends; index -4 prepends. -/
theorem insert_index_clamped_witness :
    insertToken 5 9 [0, 1] = [0, 1, 9] ∧ insertToken (-4) 9 [0, 1] = [9, 0, 1] :=
  ⟨(insert_index_clamped [0, 1] 9 5).1 (by decide) (by decide),
   (insert_index_clamped [0, 1] 9 (-4)).2 (by decide) (by decide)⟩

theorem removeAllBindings_perm_nil :
    ∀ (bs ts : List Nat), ts.Perm bs → removeAllBindings ts bs = [] := by
  intro bs
  induction bs with
  | nil =>
    intro ts h
    simpa [removeAllBindings] using h.eq_nil
  | cons b bs ih =>
    intro ts h
    have h' := List.cons_perm_iff_perm_erase.mp h.symm
    exact ih (ts.erase b) h'.2.symm

theorem disconnectAllCascade_perm_nil :
    ∀ (ts bs : List Nat), bs.Perm ts → disconnectAllCascade bs ts = [] := by
  intro ts
  induction ts with
  | nil =>
    intro bs h
    simpa [disconnectAllCascade] using h.eq_nil
  | cons t ts ih =>
    intro bs h
    have h' := List.cons_perm_iff_perm_erase.mp h.symm
    exact ih (bs.erase t) h'.2.symm

/-- C2: destroying either endpoint of a connection cascades to the other
side.  When N's tokens and R's bindings are in pairing bijection, destroying
R leaves `N.CountConnections() == 0`, and destroying N leaves
`R.CountSignalBindings() == 0`; each pair is torn down from whichever side
starts, the reciprocal pointer being nulled before the partner is deleted. -/
theorem cascade_teardown (w : ConnWorld) (hpair : w.tokens.Perm w.bindings) :
    countConnections (destroyTrackable w).tokens = 0
    ∧ (destroyTrackable w).bindings = []
    ∧ countSignalBindings (destroySignal w).bindings = 0
    ∧ (destroySignal w).tokens = [] := by
  refine ⟨?_, rfl, ?_, rfl⟩
  · rw [destroyTrackable]
    rw [removeAllBindings_perm_nil w.bindings w.tokens hpair]
    rfl
  · rw [destroySignal]
    rw [disconnectAllCascade_perm_nil w.tokens w.bindings hpair.symm]
    rfl

/-- C2 witness: two connections between N and R, both destruction orders. -/
theorem cascade_teardown_witness :
    countConnections (destroyTrackable ⟨[1, 2], [2, 1]⟩).tokens = 0
    ∧ countSignalBindings (destroySignal ⟨[1, 2], [2, 1]⟩).bindings = 0 :=
  ⟨(cascade_teardown ⟨[1, 2], [2, 1]⟩ (by decide)).1,
   (cascade_teardown ⟨[1, 2], [2, 1]⟩ (by decide)).2.2.1⟩

/-- C9: `IsConnectedTo(trackable)` answers true if and only if some
connection exists between the signal and that trackable.  Under the pair
symmetry of the data structure — the signal's token list shows a
cross-reference to the trackable exactly when the trackable's binding list
shows one back — the lockstep short-circuiting walk yields the same answer
as a full existence scan of both lists. -/
theorem is_connected_lockstep (sig obj : Nat) (tokens bindings : List Nat)
    (hsym : obj ∈ tokens ↔ sig ∈ bindings) :
    isConnectedTo sig obj tokens bindings = true
      ↔ (obj ∈ tokens ∨ sig ∈ bindings) := by
  induction tokens generalizing bindings with
  | nil =>
    have hl : isConnectedTo sig obj [] bindings = false := by
      cases bindings <;> rfl
    rw [hl]
    constructor
    · intro h; exact absurd h (by simp)
    · rintro (h | h)
      · exact absurd h (by simp)
      · exact absurd (hsym.mpr h) (by simp)
  | cons t ts ih =>
    cases bindings with
    | nil =>
      have hto : obj ∉ t :: ts := fun h => by simpa using hsym.mp h
      constructor
      · intro h; exact absurd h (by simp [isConnectedTo])
      · rintro (h | h)
        · exact absurd h hto
        · exact absurd h (by simp)
    | cons b bs =>
      by_cases ht : t = obj
      · simp [isConnectedTo, ht]
      · by_cases hb : b = sig
        · simp [isConnectedTo, ht, hb]
        · have hto : ¬(obj = t) := fun he => ht he.symm
          have hbs : ¬(sig = b) := fun he => hb he.symm
          have hsym' : obj ∈ ts ↔ sig ∈ bs := by
            constructor
            · intro h
              have h2 := hsym.mp (List.mem_cons_of_mem t h)
              exact (List.mem_cons.mp h2).resolve_left hbs
            · intro h
              have h2 := hsym.mpr (List.mem_cons_of_mem b h)
              exact (List.mem_cons.mp h2).resolve_left hto
          simp only [isConnectedTo, if_neg ht, if_neg hb, ih bs hsym',
            List.mem_cons]
          tauto

/-- C9 witness: signal 5 and trackable 7 with one real connection among
unrelated neighbours; the lockstep walk reports it. -/
theorem is_connected_lockstep_witness :
    isConnectedTo 5 7 [1, 7] [5, 9] = true :=
  (is_connected_lockstep 5 7 [1, 7] [5, 9] (by decide)).mpr (by simp)

theorem bPred_iff (n i : Nat) (x : Nat × Option Nat) :
    bPred n i x = true ↔ x.1 = n ∧ x.2 = some i := by
  simp [bPred]

/-- In a list whose keys are distinct, two members with the same key are the
same node. -/
theorem nodup_key_eq :
    ∀ {l : List (Nat × Option Nat)}, (l.map Prod.fst).Nodup →
      ∀ {x y}, x ∈ l → y ∈ l → x.1 = y.1 → x = y := by
  intro l
  induction l with
  | nil => intro _ x y hx; exact absurd hx (List.not_mem_nil x)
  | cons a l ih =>
    intro h x y hx hy hxy
    rw [List.map_cons, List.nodup_cons] at h
    rcases List.mem_cons.mp hx with rfl | hx'
    · rcases List.mem_cons.mp hy with rfl | hy'
      · rfl
      · exact absurd (hxy ▸ List.mem_map_of_mem Prod.fst hy') h.1
    · rcases List.mem_cons.mp hy with rfl | hy'
      · exact absurd (hxy ▸ List.mem_map_of_mem Prod.fst hx') h.1
      · exact ih h.2 hx' hy' hxy

/-- Filtering away nodes a predicate never matches leaves its count
unchanged. -/
theorem countP_filter_of_imp (l : List (Nat × Option Nat))
    (f g : Nat × Option Nat → Bool) (h : ∀ x ∈ l, f x = true → g x = true) :
    (l.filter g).countP f = l.countP f := by
  rw [List.countP_filter]
  apply List.countP_congr
  intro x hx
  constructor
  · intro hfg
    exact (Bool.and_eq_true _ _ |>.mp hfg).1
  · intro hf
    exact Bool.and_eq_true _ _ |>.mpr ⟨hf, h x hx hf⟩

/-- `InsertToken` places the new node somewhere in the list: the result is a
permutation of consing it on. -/
theorem insertFwd_perm (x : α) :
    ∀ (xs : List α) (n : Nat), List.Perm (insertFwd x n xs) (x :: xs) := by
  intro xs
  induction xs with
  | nil => intro n; cases n <;> exact List.Perm.refl _
  | cons p rest ih =>
    intro n
    cases n with
    | zero => exact List.Perm.refl _
    | succ m => exact ((ih m).cons p).trans (List.Perm.swap x p rest)

theorem insertToken_perm (i : Int) (x : α) (xs : List α) :
    List.Perm (insertToken i x xs) (x :: xs) := by
  by_cases he : xs.isEmpty
  · rw [List.isEmpty_iff.mp he]
    simp [insertToken]
  · by_cases hi : 0 ≤ i
    · simp only [insertToken, if_neg he, if_pos hi]
      exact insertFwd_perm x xs i.toNat
    · simp only [insertToken, if_neg he, if_neg hi]
      exact ((List.reverse_perm _).trans
        (insertFwd_perm x xs.reverse (-i - 1).toNat)).trans
        ((List.reverse_perm xs).cons x)

theorem sym_connect (w : PairWorld) (hw : Sym w) (index : Int) (tid bid : Nat)
    (htf : tid ∉ w.tokens.map Prod.fst) (hbf : bid ∉ w.bindings.map Prod.fst) :
    Sym (connect index tid bid w) := by
  obtain ⟨h1, h2, h3, h4⟩ := hw
  have htp : List.Perm (connect index tid bid w).tokens
      ((tid, some bid) :: w.tokens) :=
    insertToken_perm index (tid, some bid) w.tokens
  have hbp : List.Perm (connect index tid bid w).bindings
      ((bid, some tid) :: w.bindings) :=
    List.perm_append_singleton (bid, some tid) w.bindings
  refine ⟨?_, ?_, ?_, ?_⟩
  · have hmp : List.Perm ((connect index tid bid w).tokens.map Prod.fst)
        (tid :: w.tokens.map Prod.fst) := by
      simpa using htp.map Prod.fst
    exact hmp.nodup_iff.mpr (List.nodup_cons.mpr ⟨htf, h1⟩)
  · have hmp : List.Perm ((connect index tid bid w).bindings.map Prod.fst)
        (bid :: w.bindings.map Prod.fst) := by
      simpa using hbp.map Prod.fst
    exact hmp.nodup_iff.mpr (List.nodup_cons.mpr ⟨hbf, h2⟩)
  · intro t ht b htb
    rw [hbp.countP_eq]
    rcases List.mem_cons.mp (htp.mem_iff.mp ht) with rfl | hold
    · have hb : b = bid := by simpa using htb.symm
      subst hb
      rw [List.countP_cons]
      have hz : w.bindings.countP (bPred b (tid, some b).1) = 0 := by
        rw [List.countP_eq_zero]
        intro p hp hpp
        have hmem : p.1 ∈ w.bindings.map Prod.fst :=
          List.mem_map_of_mem Prod.fst hp
        rw [((bPred_iff _ _ _).mp hpp).1] at hmem
        exact hbf hmem
      simp [hz, bPred]
    · have hold1 := h3 t hold b htb
      rw [List.countP_cons]
      have hne : ¬(bPred b t.1 (bid, some tid) = true) := by
        intro hcontra
        obtain ⟨hb_eq, _⟩ := (bPred_iff _ _ _).mp hcontra
        have hpos : 0 < w.bindings.countP (bPred b t.1) := by
          rw [hold1]; omega
        obtain ⟨p, hp, hpp⟩ := List.countP_pos_iff.mp hpos
        have hmem : p.1 ∈ w.bindings.map Prod.fst :=
          List.mem_map_of_mem Prod.fst hp
        rw [((bPred_iff _ _ _).mp hpp).1, ← hb_eq] at hmem
        exact hbf hmem
      rw [if_neg hne, hold1]
  · intro p hp a hpa
    rw [htp.countP_eq]
    rcases List.mem_cons.mp (hbp.mem_iff.mp hp) with rfl | hold
    · have ha : a = tid := by simpa using hpa.symm
      subst ha
      rw [List.countP_cons]
      have hz : w.tokens.countP (bPred a (bid, some a).1) = 0 := by
        rw [List.countP_eq_zero]
        intro q hq hqq
        have hmem : q.1 ∈ w.tokens.map Prod.fst :=
          List.mem_map_of_mem Prod.fst hq
        rw [((bPred_iff _ _ _).mp hqq).1] at hmem
        exact htf hmem
      simp [hz, bPred]
    · have hold1 := h4 p hold a hpa
      rw [List.countP_cons]
      have hne : ¬(bPred a p.1 (tid, some bid) = true) := by
        intro hcontra
        obtain ⟨ha_eq, _⟩ := (bPred_iff _ _ _).mp hcontra
        have hpos : 0 < w.tokens.countP (bPred a p.1) := by
          rw [hold1]; omega
        obtain ⟨q, hq, hqq⟩ := List.countP_pos_iff.mp hpos
        have hmem : q.1 ∈ w.tokens.map Prod.fst :=
          List.mem_map_of_mem Prod.fst hq
        rw [((bPred_iff _ _ _).mp hqq).1, ← ha_eq] at hmem
        exact htf hmem
      rw [if_neg hne, hold1]

theorem sym_destroyStep (ts bs : List (Nat × Option Nat))
    (h1 : (ts.map Prod.fst).Nodup) (h2 : (bs.map Prod.fst).Nodup)
    (h3 : ∀ t ∈ ts, ∀ b, t.2 = some b → bs.countP (bPred b t.1) = 1)
    (h4 : ∀ p ∈ bs, ∀ a, p.2 = some a → ts.countP (bPred a p.1) = 1)
    (nid : Nat) :
    ((destroyStep nid ts bs).1.map Prod.fst).Nodup ∧
    ((destroyStep nid ts bs).2.map Prod.fst).Nodup ∧
    (∀ t ∈ (destroyStep nid ts bs).1, ∀ b, t.2 = some b →
      (destroyStep nid ts bs).2.countP (bPred b t.1) = 1) ∧
    (∀ p ∈ (destroyStep nid ts bs).2, ∀ a, p.2 = some a →
      (destroyStep nid ts bs).1.countP (bPred a p.1) = 1) := by
  cases hf : ts.find? (fun t => t.1 == nid) with
  | none =>
    simp only [destroyStep, hf]
    exact ⟨h1, h2, h3, h4⟩
  | some t =>
    have htmem : t ∈ ts := List.mem_of_find?_eq_some hf
    have htid : t.1 = nid := by simpa using List.find?_some hf
    cases ht2 : t.2 with
    | none =>
      simp only [destroyStep, hf, ht2]
      refine ⟨((List.filter_sublist ts).map Prod.fst).nodup h1, h2, ?_, ?_⟩
      · intro t' ht' b htb
        exact h3 t' (List.mem_of_mem_filter ht') b htb
      · intro p hp a hpa
        rw [countP_filter_of_imp]
        · exact h4 p hp a hpa
        · intro x hx hxp
          rw [bne_iff_ne]
          intro hxid
          have hxt : x = t := nodup_key_eq h1 hx htmem (hxid.trans htid.symm)
          have : x.2 = some p.1 := ((bPred_iff _ _ _).mp hxp).2
          rw [hxt, ht2] at this
          exact Option.noConfusion this
    | some pid =>
      simp only [destroyStep, hf, ht2]
      refine ⟨((List.filter_sublist ts).map Prod.fst).nodup h1,
        ((List.filter_sublist bs).map Prod.fst).nodup h2, ?_, ?_⟩
      · intro t' ht' b htb
        have ht'mem := List.mem_of_mem_filter ht'
        have ht'ne : t'.1 ≠ nid := by
          have := (List.mem_filter.mp ht').2
          simpa using this
        rw [countP_filter_of_imp]
        · exact h3 t' ht'mem b htb
        · intro x hx hxp
          rw [bne_iff_ne]
          intro hxpid
          obtain ⟨hx1, hx2⟩ := (bPred_iff _ _ _).mp hxp
          have hpos : 0 < bs.countP (bPred pid t.1) := by
            rw [h3 t htmem pid ht2]; omega
          obtain ⟨p₀, hp₀, hp₀p⟩ := List.countP_pos_iff.mp hpos
          obtain ⟨hp₀1, hp₀2⟩ := (bPred_iff _ _ _).mp hp₀p
          have hxp₀ : x = p₀ := nodup_key_eq h2 hx hp₀ (hxpid.trans hp₀1.symm)
          rw [hxp₀, hp₀2] at hx2
          have : t.1 = t'.1 := by simpa using hx2
          exact ht'ne (this.symm.trans htid)
      · intro p hp a hpa
        have hpmem := List.mem_of_mem_filter hp
        have hpne : p.1 ≠ pid := by
          have := (List.mem_filter.mp hp).2
          simpa using this
        rw [countP_filter_of_imp]
        · exact h4 p hpmem a hpa
        · intro x hx hxp
          rw [bne_iff_ne]
          intro hxid
          have hxt : x = t := nodup_key_eq h1 hx htmem (hxid.trans htid.symm)
          have hx2 : x.2 = some p.1 := ((bPred_iff _ _ _).mp hxp).2
          rw [hxt, ht2] at hx2
          have : pid = p.1 := by simpa using hx2
          exact hpne this.symm

/-- C4: pair symmetry is an invariant preserved by every operation — a
token references at most one binding and vice versa (the `Option`-valued
reference), and at every observable point, if one side's pair reference is
non-null then the other side's list holds exactly one node pairing back at
it.  `Connect` with fresh nodes preserves it for every insertion index, and
so does destruction entered from either endpoint (token teardown or binding
teardown), for every node identifier. -/
theorem pair_symmetry_invariant (w : PairWorld) (hw : Sym w) :
    (∀ (index : Int) (tid bid : Nat),
        tid ∉ w.tokens.map Prod.fst → bid ∉ w.bindings.map Prod.fst →
        Sym (connect index tid bid w))
    ∧ (∀ tid : Nat, Sym (destroyToken tid w))
    ∧ (∀ bid : Nat, Sym (destroyBinding bid w)) := by
  refine ⟨fun index tid bid htf hbf => sym_connect w hw index tid bid htf hbf,
    fun tid => ?_, fun bid => ?_⟩
  · obtain ⟨h1, h2, h3, h4⟩ := hw
    have h := sym_destroyStep w.tokens w.bindings h1 h2 h3 h4 tid
    exact ⟨h.1, h.2.1, h.2.2.1, h.2.2.2⟩
  · obtain ⟨h1, h2, h3, h4⟩ := hw
    have h := sym_destroyStep w.bindings w.tokens h2 h1 h4 h3 bid
    exact ⟨h.2.1, h.1, h.2.2.2, h.2.2.1⟩

/-- C4 witness: a world with one live connection satisfies the invariant,
and it is preserved by a fresh `Connect`, by token-side teardown and by
binding-side teardown. -/
theorem pair_symmetry_invariant_witness :
    Sym (connect (-1) 10 20 ⟨[(1, some 2)], [(2, some 1)]⟩)
    ∧ Sym (destroyToken 1 ⟨[(1, some 2)], [(2, some 1)]⟩)
    ∧ Sym (destroyBinding 2 ⟨[(1, some 2)], [(2, some 1)]⟩) := by
  have hSym : Sym ⟨[(1, some 2)], [(2, some 1)]⟩ := by
    refine ⟨by decide, by decide, ?_, ?_⟩
    · intro t ht b htb
      rw [List.mem_singleton.mp ht] at htb ⊢
      have hb : b = 2 := by simpa using htb.symm
      subst hb
      decide
    · intro p hp a hpa
      rw [List.mem_singleton.mp hp] at hpa ⊢
      have ha : a = 1 := by simpa using hpa.symm
      subst ha
      decide
  have h := pair_symmetry_invariant ⟨[(1, some 2)], [(2, some 1)]⟩ hSym
  exact ⟨h.1 (-1) 10 20 (by decide) (by decide), h.2.1 1, h.2.2 2⟩

end Sigcxx

